import Mathlib

/-!
# Verification of the harmony-energy-data-pipeline core

Shallow embedding of the pipeline core (src/transform/transform.py,
src/serve/load.py, src/serve/run_history.py, src/ingest/fetch_neso.py,
src/pipeline/run.py) and proofs about it.

Modelling conventions:
* A Polars `Float64` cell is modelled by `Val`: either `null`, a finite
  rational, `inf`, `ninf` (negative infinity) or `nan`.  Arithmetic follows
  IEEE-754 semantics on the non-null cases (division by zero yields a signed
  infinity or NaN, `inf - inf = nan`, NaN compares false) and Kleene
  null-propagation on the null cases, matching Polars.  The model collapses
  `-0.0` to `0`.
* A canonical `generation` row (src/db/models.py) is `Row`: the `_id` and
  `DATETIME` key columns (nullable integer / timestamp) plus the numeric
  columns, indexed by `Fuel` (the eleven fuel columns iterated by
  `_validate_perc_consistency`) for the absolute and `_perc` pairs, the
  `GENERATION` total, and `Extra` for the remaining ten numeric columns.
* `transform_records` is modelled post-parse: timestamps are already typed
  (`Option Int`) and numerics already cast, so the `_parse_and_cast` stage
  reduces to its sort; schema alignment is the identity on the fixed `Row`
  schema and is modelled separately, column-level, by `_align_schema`.
* Polars `sort` is modelled by `List.insertionSort` (a stable sort);
  `unique(keep="last")` by `keepLastBy`, which keeps the last occurrence of
  each key in frame order.
-/

/-- A Polars Float64 cell: null, a finite value, ±infinity, or NaN. -/
inductive Val where
  | null : Val
  | fin : ℚ → Val
  | inf : Val
  | ninf : Val
  | nan : Val
deriving DecidableEq

namespace Val

/-- Is the cell null? -/
def isNull : Val → Bool
  | .null => true
  | _ => false

/-- Is the cell a finite number? -/
def isFinite : Val → Bool
  | .fin _ => true
  | _ => false

/-- IEEE division with Polars null propagation (Kleene). -/
def divV : Val → Val → Val
  | .null, _ => .null
  | _, .null => .null
  | .nan, _ => .nan
  | _, .nan => .nan
  | .fin a, .fin b =>
      if b = 0 then
        if a = 0 then .nan else if 0 < a then .inf else .ninf
      else .fin (a / b)
  | .fin _, .inf => .fin 0
  | .fin _, .ninf => .fin 0
  | .inf, .fin b => if 0 ≤ b then .inf else .ninf
  | .ninf, .fin b => if 0 ≤ b then .ninf else .inf
  | .inf, .inf => .nan
  | .inf, .ninf => .nan
  | .ninf, .inf => .nan
  | .ninf, .ninf => .nan

/-- IEEE multiplication with Polars null propagation. -/
def mulV : Val → Val → Val
  | .null, _ => .null
  | _, .null => .null
  | .nan, _ => .nan
  | _, .nan => .nan
  | .fin a, .fin b => .fin (a * b)
  | .inf, .fin b => if b = 0 then .nan else if 0 < b then .inf else .ninf
  | .fin a, .inf => if a = 0 then .nan else if 0 < a then .inf else .ninf
  | .ninf, .fin b => if b = 0 then .nan else if 0 < b then .ninf else .inf
  | .fin a, .ninf => if a = 0 then .nan else if 0 < a then .ninf else .inf
  | .inf, .inf => .inf
  | .inf, .ninf => .ninf
  | .ninf, .inf => .ninf
  | .ninf, .ninf => .inf

/-- IEEE subtraction with Polars null propagation. -/
def subV : Val → Val → Val
  | .null, _ => .null
  | _, .null => .null
  | .nan, _ => .nan
  | _, .nan => .nan
  | .fin a, .fin b => .fin (a - b)
  | .inf, .fin _ => .inf
  | .fin _, .inf => .ninf
  | .ninf, .fin _ => .ninf
  | .fin _, .ninf => .inf
  | .inf, .inf => .nan
  | .ninf, .ninf => .nan
  | .inf, .ninf => .inf
  | .ninf, .inf => .ninf

/-- IEEE absolute value with null propagation. -/
def absV : Val → Val
  | .null => .null
  | .fin a => .fin |a|
  | .inf => .inf
  | .ninf => .inf
  | .nan => .nan

/-- The Polars boolean mask `v > q` against a finite literal: null mask for a
null cell, false for NaN, true for `inf`, false for `ninf`. -/
def gtQ : Val → ℚ → Option Bool
  | .null, _ => none
  | .fin a, q => some (decide (q < a))
  | .inf, _ => some true
  | .ninf, _ => some false
  | .nan, _ => some false

/-- The comparison `v ≤ q` against a finite literal, as the spec's
post-condition predicate: false for null, NaN and `inf`. -/
def leQ : Val → ℚ → Bool
  | .null, _ => false
  | .fin a, q => decide (a ≤ q)
  | .inf, _ => false
  | .ninf, _ => true
  | .nan, _ => false

/-- `fill_null(0.0)` on one cell. -/
def fill0 : Val → Val
  | .null => .fin 0
  | v => v

end Val

/-- The eleven fuel columns iterated by `_validate_perc_consistency`
(in the source's `fuel_cols` order). -/
inductive Fuel where
  | BIOMASS | COAL | GAS | HYDRO | IMPORTS
  | NUCLEAR | OTHER | SOLAR | STORAGE | WIND_EMB | WIND
deriving DecidableEq, Fintype

/-- `fuel_cols`, in source order. -/
def Fuel.all : List Fuel :=
  [.BIOMASS, .COAL, .GAS, .HYDRO, .IMPORTS,
   .NUCLEAR, .OTHER, .SOLAR, .STORAGE, .WIND_EMB, .WIND]

/-- The remaining ten numeric columns of the `Generation` model that are not
fuel absolute/percentage pairs nor `GENERATION` itself. -/
inductive Extra where
  | CARBON_INTENSITY | GENERATION_perc
  | LOW_CARBON | LOW_CARBON_perc | ZERO_CARBON | ZERO_CARBON_perc
  | RENEWABLE | RENEWABLE_perc | FOSSIL | FOSSIL_perc
deriving DecidableEq, Fintype

/-- All `Extra` columns. -/
def Extra.all : List Extra :=
  [.CARBON_INTENSITY, .GENERATION_perc,
   .LOW_CARBON, .LOW_CARBON_perc, .ZERO_CARBON, .ZERO_CARBON_perc,
   .RENEWABLE, .RENEWABLE_perc, .FOSSIL, .FOSSIL_perc]

/-- A canonical `generation` row (src/db/models.py): 35 columns in total —
`_id`, `DATETIME`, 11 fuel absolutes, 11 fuel percentages, `GENERATION`,
and the 10 `Extra` columns. -/
structure Row where
  id : Option Int
  datetime : Option Int
  abs : Fuel → Val
  perc : Fuel → Val
  generation : Val
  extra : Extra → Val
deriving DecidableEq

/-- The column count of the `Generation` model (src/db/models.py). -/
def generationNumCols : ℕ := 35

/-- Does the row contain a null in any column?
(`pl.any_horizontal(pl.all().is_null())` in `_validate_missing_values`). -/
def Row.hasNull (r : Row) : Bool :=
  r.id.isNone || r.datetime.isNone || r.generation.isNull ||
  Fuel.all.any (fun f => (r.abs f).isNull || (r.perc f).isNull) ||
  Extra.all.any (fun e => (r.extra e).isNull)

/-- `cs.float().fill_null(0.0)` on one row: every numeric (float) column has
nulls replaced by `0.0`; the `_id` and `DATETIME` key columns are not float
columns and are untouched. -/
def Row.fill0 (r : Row) : Row :=
  { r with
    abs := fun f => (r.abs f).fill0
    perc := fun f => (r.perc f).fill0
    generation := r.generation.fill0
    extra := fun e => (r.extra e).fill0 }

/-- Ordering of nullable cells as Polars sorts them: nulls first. -/
def obLe (a b : Option Int) : Bool :=
  match a, b with
  | none, _ => true
  | some _, none => false
  | some x, some y => decide (x ≤ y)

/-- Row order used by `df.sort("DATETIME")`. -/
def dtLe (a b : Row) : Prop := obLe a.datetime b.datetime = true

/-- Row order used by `df.sort("_id")`. -/
def idLe (a b : Row) : Prop := obLe a.id b.id = true

instance : DecidableRel dtLe := fun _ _ => inferInstanceAs (Decidable (_ = true))
instance : DecidableRel idLe := fun _ _ => inferInstanceAs (Decidable (_ = true))

theorem obLe_total (a b : Option Int) : obLe a b = true ∨ obLe b a = true := by
  rcases a with _ | x <;> rcases b with _ | y <;> simp [obLe] <;> omega

theorem obLe_trans {a b c : Option Int} (h₁ : obLe a b = true) (h₂ : obLe b c = true) :
    obLe a c = true := by
  rcases a with _ | x <;> rcases b with _ | y <;> rcases c with _ | z <;>
    simp [obLe] at * <;> omega

instance : IsTotal Row dtLe := ⟨fun a b => obLe_total a.datetime b.datetime⟩
instance : IsTrans Row dtLe := ⟨fun _ _ _ h₁ h₂ => obLe_trans h₁ h₂⟩
instance : IsTotal Row idLe := ⟨fun a b => obLe_total a.id b.id⟩
instance : IsTrans Row idLe := ⟨fun _ _ _ h₁ h₂ => obLe_trans h₁ h₂⟩

/-- Polars `unique(subset=key, keep="last")`: keep, for each key, the last
occurrence in frame order.  (With `maintain_order=True` the kept rows appear
in frame order; without it the order is unspecified upstream, and every use
in the source re-sorts immediately afterwards, so this deterministic
refinement is faithful.) -/
def keepLastBy {α κ : Type} [DecidableEq κ] (key : α → κ) : List α → List α
  | [] => []
  | x :: xs =>
      if xs.any (fun y => key y = key x) then keepLastBy key xs
      else x :: keepLastBy key xs

/-! ## The Transformer (src/transform/transform.py) -/

/-- `_parse_and_cast`, post-parse: timestamps are already typed and numerics
already cast in the `Row` model, so the stage reduces to its
`.sort(dt_col)`. -/
def parse_and_cast (l : List Row) : List Row := List.insertionSort dtLe l

/-- `calculated_perc`: the expression `(pl.col(col) / pl.col("GENERATION")) * 100`. -/
def calcPerc (r : Row) (f : Fuel) : Val :=
  Val.mulV (Val.divV (r.abs f) r.generation) (Val.fin 100)

/-- `perc_diff`: `(calc - stored).abs()`. -/
def percDiff (r : Row) (f : Fuel) : Val :=
  Val.absV (Val.subV (calcPerc r f) (r.perc f))

/-- The new stored percentage for one fuel:
`pl.when(diff > tolerance).then(calc).otherwise(stored)`.
A null mask propagates to a null result (Polars semantics). -/
def newPerc (tol : ℚ) (r : Row) (f : Fuel) : Val :=
  match Val.gtQ (percDiff r f) tol with
  | none => Val.null
  | some true => calcPerc r f
  | some false => r.perc f

/-- Apply the percentage reconciliation of one fuel column to one row. -/
def applyFuel (tol : ℚ) (f : Fuel) (r : Row) : Row :=
  { r with perc := fun g => if g = f then newPerc tol r f else r.perc g }

/-- One iteration of the `for col in fuel_cols` loop of
`_validate_perc_consistency`: count the rows with `diff > tolerance`, then
overwrite the percentage column. -/
def reconStep (tol : ℚ) (acc : List Row × ℕ) (f : Fuel) : List Row × ℕ :=
  let bad := (acc.1.filter (fun r => Val.gtQ (percDiff r f) tol = some true)).length
  (acc.1.map (applyFuel tol f), acc.2 + bad)

/-- `_validate_perc_consistency(df, tolerance)`: for every fuel column (all
are present after schema alignment), recompute the percentage from the
absolute value and the total, and overwrite the stored percentage where the
difference exceeds the tolerance.  Returns the frame and the total count of
inconsistent cells.  (The `_calc`/`_diff` helper columns are dropped at the
end in the source; here they are let-bound and never part of the row.) -/
def validate_perc_consistency (l : List Row) (tol : ℚ := 1) : List Row × ℕ :=
  Fuel.all.foldl (reconStep tol) (l, 0)

/-- `_validate_missing_values`: if any row has a null, drop the rows with a
null `_id` or `DATETIME` and fill the remaining null floats with `0.0`.
Returns the frame and the count of rows that had any null. -/
def validate_missing_values (l : List Row) : List Row × ℕ :=
  let nullRowCount := (l.filter (fun r => r.hasNull)).length
  if 0 < nullRowCount then
    ((l.filter (fun r => r.id.isSome && r.datetime.isSome)).map Row.fill0,
     nullRowCount)
  else (l, nullRowCount)

/-- `_deduplicate`: drop duplicate `_id`s preferring the latest timestamp
(`sort("DATETIME").unique(subset=["_id"], keep="last")`), then drop
duplicate timestamps preferring the greatest `_id`
(`sort("_id").unique("DATETIME", keep="last", maintain_order=True)`).
Returns the frame and the number of removed rows. -/
def deduplicate (l : List Row) : List Row × ℕ :=
  let d1 := keepLastBy (fun r => r.id) (List.insertionSort dtLe l)
  let d2 := keepLastBy (fun r => r.datetime) (List.insertionSort idLe d1)
  (d2, l.length - d2.length)

/-- `transform_records`: the full Transformer on a batch of (already parsed)
records.  Empty input short-circuits to an empty frame.  Schema alignment is
the identity on the fixed `Row` schema; the default tolerance is `1.0`. -/
def transform_records (records : List Row) : List Row :=
  match records with
  | [] => []
  | _ :: _ =>
    let df := parse_and_cast records
    let df := (validate_perc_consistency df 1).1
    let df := (validate_missing_values df).1
    (deduplicate df).1

/-! ## Schema alignment, column-level (`_align_schema`) -/

/-- A named column of a frame. -/
abbrev NamedCol := String × List Val

/-- The height of a frame (all columns share it). -/
def frameHeight (df : List NamedCol) : ℕ :=
  match df with
  | [] => 0
  | c :: _ => c.2.length

/-- `_align_schema(df, expected_cols)`: append each expected column missing
from the frame as a null column (`with_columns(pl.lit(None).alias(col))`
appends at the end; the Python set-difference iteration order is modelled as
`expected_cols` order), then keep only the expected columns
(`select(cs.by_name(expected_cols, require_all=False))`; a selector returns
the matching columns in frame order). -/
def align_schema (df : List NamedCol) (expected_cols : List String) : List NamedCol :=
  let missing := expected_cols.filter (fun c => !(df.any (fun p => p.1 == c)))
  let df2 := df ++ missing.map (fun c => (c, List.replicate (frameHeight df) Val.null))
  df2.filter (fun p => expected_cols.contains p.1)

/-! ## The Loader (src/serve/load.py) -/

/-- `batch_size = floor(999 / num_cols)`: SQLite's 999-bound-parameter limit
divided by the column count. -/
def upsertBatchSize (numCols : ℕ) : ℕ := 999 / numCols

/-- The chunks produced by `for i in range(0, total, batch_size): df.slice(i,
batch_size)`.  (Python raises on a zero step, so `bs = 0` is out of the
source's domain; the model returns no chunks there.) -/
def chunkify {α : Type} : List α → ℕ → List (List α)
  | [], _ => []
  | x :: xs, bs =>
      if h : 0 < bs then
        (x :: xs).take bs :: chunkify ((x :: xs).drop bs) bs
      else []
termination_by l _ => l.length
decreasing_by
  simp only [List.length_drop, List.length_cons]
  omega

/-- The effect of upserting one row keyed on `_id`
(`on_conflict_do_update(index_elements=[Generation._id], set_=update_data)`):
if a row with the same `_id` exists, every non-key column is overwritten
(the whole row is replaced, the key being equal); otherwise the row is
inserted. -/
def upsertRow (store : List Row) (r : Row) : List Row :=
  if store.any (fun t => t.id = r.id) then
    store.map (fun t => if t.id = r.id then r else t)
  else store ++ [r]

/-- `upsert_generation_data(df, session)`: split the frame into chunks of
`floor(999 / num_cols)` rows and execute one insert-or-update statement per
chunk, committing each chunk.  The store state after the statements is the
left fold of the row-level upsert. -/
def upsert_generation_data (store : List Row) (df : List Row) : List Row :=
  (chunkify df (upsertBatchSize generationNumCols)).foldl
    (fun s chunk => chunk.foldl upsertRow s) store

/-! ## The Fetcher (src/ingest/fetch_neso.py) -/

/-- A raw upstream record: carries its `_id`; the other fields do not affect
the fetch loop. -/
structure RawRec where
  _id : Int
deriving DecidableEq

/-- The body of the `while True` loop of `fetch_neso_data`, generic in the
record type with an `_id` accessor (`records[-1]["_id"]` becomes
`idOf lastRec`), with explicit fuel (the source loop need not terminate
against an adversarial upstream).  `api cursor` is the page returned for
`WHERE "_id" > cursor`.  Returns the accumulated records, the final cursor
and the number of pages requested.  The `max_records` check models Python
truthiness: `None` and `0` disable it. -/
def fetchLoop {α : Type} (api : Int → List α) (idOf : α → Int)
    (batch_size : ℕ) (max_records : Option ℕ) :
    ℕ → Int → List α → ℕ → List α × Int × ℕ
  | 0, latest, acc, pages => (acc, latest, pages)
  | fuel + 1, latest, acc, pages =>
      let records := api latest
      match records.getLast? with
      | none => (acc, latest, pages + 1)
      | some lastRec =>
          let acc' := acc ++ records
          let latest' := idOf lastRec
          if (match max_records with
              | some m => decide (0 < m ∧ m ≤ acc'.length)
              | none => false) then
            (acc', latest', pages + 1)
          else if records.length < batch_size then
            (acc', latest', pages + 1)
          else
            fetchLoop api idOf batch_size max_records fuel latest' acc' (pages + 1)

/-- `fetch_neso_data(last_id, batch_size, max_records)`. -/
def fetch_neso_data (api : Int → List RawRec) (last_id : Int)
    (batch_size : ℕ := 30000) (max_records : Option ℕ := none)
    (fuel : ℕ := 1000000) : List RawRec × Int × ℕ :=
  fetchLoop api (fun r => r._id) batch_size max_records fuel last_id [] 0

/-! ## The Run Tracker (src/serve/run_history.py) -/

/-- The metrics dict returned by `run_pipeline`. -/
structure PipeResult where
  total_fetched : ℕ
  valid_records : ℕ
  last_fetched_id : Int
deriving DecidableEq

/-- A `pipeline_run_history` row (src/db/models.py). -/
structure RunHistoryRow where
  run_start : Int
  run_stop : Option Int
  last_fetched_id : Option Int
  total_fetched : ℕ
  valid_records : ℕ
  success : Bool
  error_message : Option String
deriving DecidableEq

/-- `pipeline_run_tracker`: wraps one pipeline invocation, whose outcome is
`Except String PipeResult` (an exception carries its message string).  The
tracked fields start at their defaults (`success = false`, zero counts); on
return the metrics are copied and `success` set; on exception the message is
recorded and the exception re-raised; the `finally` block always sets
`run_stop` and commits all fields.  Returns the finalized row and the
propagated outcome. -/
def pipeline_run_tracker (runOutcome : Except String PipeResult)
    (t_start t_stop : Int) : RunHistoryRow × Except String PipeResult :=
  let init : RunHistoryRow :=
    { run_start := t_start, run_stop := none, last_fetched_id := none,
      total_fetched := 0, valid_records := 0, success := false,
      error_message := none }
  match runOutcome with
  | .ok r =>
      ({ init with run_stop := some t_stop,
                   last_fetched_id := some r.last_fetched_id,
                   total_fetched := r.total_fetched,
                   valid_records := r.valid_records,
                   success := true }, .ok r)
  | .error e =>
      ({ init with run_stop := some t_stop,
                   error_message := some e,
                   success := false }, .error e)

/-! ## The Pipeline Orchestrator (src/pipeline/run.py) -/

/-- `session.query(Generation._id).order_by(desc).first()`: the maximum
`_id` in the store, or `0` if the store is empty. -/
def last_id_of (store : List Row) : Int :=
  match (store.filterMap (fun r => r.id)).max? with
  | some m => m
  | none => 0

/-- The result of one orchestrator run: the metrics dict, the store after
the load, and how often the Transformer and the Loader were invoked. -/
structure PipeTrace where
  result : PipeResult
  store : List Row
  transformCalls : ℕ
  loaderCalls : ℕ

/-- `df["_id"].max()` on the canonical frame, falling back to the original
cursor (only reachable when the frame is empty). -/
def maxIdOr (df : List Row) (dflt : Int) : Int :=
  match (df.filterMap (fun r => r.id)).max? with
  | some m => m
  | none => dflt

/-- The `_id` of an upstream record, as a plain integer (raw upstream
records always carry an integer `_id`; the model reads it off the typed
row). -/
def rowId (r : Row) : Int := r.id.getD 0

/-- `run_pipeline`: determine the cursor from the store, fetch (batch size
30000, no `max_records`), and — if anything was fetched — transform and
upsert.  The upstream pages are modelled as already-parsed rows. -/
def run_pipeline (api : Int → List Row) (store : List Row)
    (fuel : ℕ := 1000000) : PipeTrace :=
  let last_id := last_id_of store
  let records :=
    (fetchLoop api rowId 30000 none fuel last_id [] 0).1
  let total_fetched := records.length
  match total_fetched with
  | 0 =>
      { result := { total_fetched := 0, valid_records := 0,
                    last_fetched_id := last_id },
        store := store, transformCalls := 0, loaderCalls := 0 }
  | _ + 1 =>
      let df := transform_records records
      let valid_records := df.length
      { result := { total_fetched := total_fetched,
                    valid_records := valid_records,
                    last_fetched_id :=
                      if 0 < valid_records then maxIdOr df last_id else last_id },
        store := upsert_generation_data store df,
        transformCalls := 1, loaderCalls := 1 }

/-! ## Example rows used by concrete counterexamples and witnesses -/

/-- A full canonical row whose only interesting columns are `WIND`,
`WIND_perc` and `GENERATION`; everything else is a finite zero. -/
def sampleRow (i dt : Int) (w wp g : Val) : Row :=
  { id := some i, datetime := some dt,
    abs := fun f => if f = .WIND then w else Val.fin 0,
    perc := fun f => if f = .WIND then wp else Val.fin 0,
    generation := g,
    extra := fun _ => Val.fin 0 }

/-! ## Loader batching lemmas -/

theorem chunkify_length {α : Type} :
    ∀ (l : List α) (bs : ℕ), 0 < bs →
      (chunkify l bs).length = (l.length + bs - 1) / bs
  | [], bs, hbs => by
      simp only [chunkify, List.length_nil, Nat.zero_add, List.length]
      exact (Nat.div_eq_of_lt (by omega)).symm
  | x :: xs, bs, hbs => by
      rw [chunkify, dif_pos hbs]
      have hlen : (List.drop bs (x :: xs)).length = (x :: xs).length - bs := by
        simp [List.length_drop]
      have ih := chunkify_length (List.drop bs (x :: xs)) bs hbs
      rw [List.length_cons, ih, hlen]
      rcases Nat.le_total (x :: xs).length bs with hle | hge
      · have h1 : (x :: xs).length - bs = 0 := by omega
        rw [h1]
        have h2 : (0 + bs - 1) / bs = 0 := Nat.div_eq_of_lt (by omega)
        have h3 : ((x :: xs).length + bs - 1) / bs = 1 :=
          Nat.div_eq_of_lt_le (by simp only [List.length_cons] at *; omega)
            (by simp only [List.length_cons] at *; omega)
        rw [h2, h3]
      · have h4 : (x :: xs).length + bs - 1 = ((x :: xs).length - bs + bs - 1) + bs := by
          omega
        rw [h4, Nat.add_div_right _ hbs]
termination_by l => l.length
decreasing_by simp [List.length_drop]; omega

theorem chunkify_chunk_le {α : Type} :
    ∀ (l : List α) (bs : ℕ), ∀ b ∈ chunkify l bs, b.length ≤ bs
  | [], bs => by simp [chunkify]
  | x :: xs, bs => by
      by_cases hbs : 0 < bs
      · rw [chunkify, dif_pos hbs]
        intro b hb
        rcases List.mem_cons.mp hb with hb | hb
        · simpa [hb] using List.length_take_le bs (x :: xs)
        · exact chunkify_chunk_le (List.drop bs (x :: xs)) bs b hb
      · rw [chunkify, dif_neg hbs]
        simp
termination_by l => l.length
decreasing_by simp [List.length_drop]; omega

theorem chunkify_flatten {α : Type} :
    ∀ (l : List α) (bs : ℕ), 0 < bs → (chunkify l bs).flatten = l
  | [], bs, _ => by simp [chunkify]
  | x :: xs, bs, hbs => by
      rw [chunkify, dif_pos hbs]
      rw [List.flatten_cons, chunkify_flatten (List.drop bs (x :: xs)) bs hbs,
        List.take_append_drop]
termination_by l => l.length
decreasing_by simp [List.length_drop]; omega

/-- Whenever a page is ascending in `_id` (as the fetch SQL orders it), its
last record carries the maximum identifier of the page. -/
theorem sorted_le_getLast :
    ∀ {l : List RawRec}, List.Sorted (fun a b : RawRec => a._id ≤ b._id) l →
      ∀ {r : RawRec}, l.getLast? = some r → ∀ x ∈ l, x._id ≤ r._id
  | [], _, _, hr => by simp at hr
  | [a], _, r, hr => by
      simp only [List.getLast?_singleton, Option.some.injEq] at hr
      intro x hx
      rcases List.mem_singleton.mp hx with rfl
      exact hr ▸ Int.le_refl _
  | a :: b :: t, hs, r, hr => by
      rw [List.getLast?_cons_cons] at hr
      intro x hx
      rcases List.mem_cons.mp hx with rfl | hx
      · have hmem : r ∈ b :: t := List.mem_of_getLast?_eq_some hr
        exact List.rel_of_sorted_cons hs r hmem
      · exact sorted_le_getLast hs.of_cons hr x hx

/-- **C3** For every non-empty canonical table with `R` rows and `C` columns
(`0 < C ≤ 999`), the loader computes `batch_size = floor(999 / C)`, splits
the table into `ceil(R / batch_size)` statements whose concatenation is the
table, and no statement binds more than `999 = batch_size * C` parameters. -/
theorem C3_loader_batching (numCols : ℕ) (rows : List Row)
    (h1 : 0 < numCols) (h2 : numCols ≤ 999) :
    (chunkify rows (upsertBatchSize numCols)).length
        = (rows.length + upsertBatchSize numCols - 1) / upsertBatchSize numCols
    ∧ (∀ b ∈ chunkify rows (upsertBatchSize numCols), b.length * numCols ≤ 999)
    ∧ (chunkify rows (upsertBatchSize numCols)).flatten = rows := by
  have hbs : 0 < upsertBatchSize numCols := Nat.div_pos h2 h1
  refine ⟨chunkify_length _ _ hbs, ?_, chunkify_flatten _ _ hbs⟩
  intro b hb
  calc b.length * numCols
      ≤ upsertBatchSize numCols * numCols :=
        Nat.mul_le_mul_right _ (chunkify_chunk_le _ _ b hb)
    _ ≤ 999 := Nat.div_mul_le_self 999 numCols

/-- **C3 witness** The spec's instance: 2000 rows, 20 columns → batches of
`floor(999/20) = 49` rows across 41 statements, at most 980 ≤ 999 bound
parameters each. -/
theorem C3_loader_batching_witness :
    upsertBatchSize 20 = 49
    ∧ (chunkify (List.replicate 2000 (sampleRow 1 0 (Val.fin 0) (Val.fin 0) (Val.fin 0)))
        (upsertBatchSize 20)).length = 41
    ∧ ∀ b ∈ chunkify (List.replicate 2000 (sampleRow 1 0 (Val.fin 0) (Val.fin 0) (Val.fin 0)))
        (upsertBatchSize 20), b.length * 20 ≤ 999 := by
  have h := C3_loader_batching 20
    (List.replicate 2000 (sampleRow 1 0 (Val.fin 0) (Val.fin 0) (Val.fin 0)))
    (by decide) (by decide)
  refine ⟨by decide, ?_, h.2.1⟩
  rw [h.1]
  simp only [List.length_replicate, upsertBatchSize]

/-- **C4** The fetch loop (i) stops after one request when the first page is
empty, returning the unchanged cursor; (ii) stops after a page shorter than
`batch_size`; (iii) stops once `max_records` is reached; (iv) in the spec's
scenario — page 1 of exactly `batch_size` records, page 2 empty — it stops
after page 2 with exactly page 1's records and the cursor advanced to the
last (and, the page being id-ascending, maximum) identifier of page 1. -/
theorem C4_fetch_loop_behaviour :
    (∀ (api : Int → List RawRec) (bsz : ℕ) (mr : Option ℕ) (fuel : ℕ) (last_id : Int),
      api last_id = [] →
      fetch_neso_data api last_id bsz mr (fuel + 1) = ([], last_id, 1))
    ∧ (∀ (api : Int → List RawRec) (bsz fuel : ℕ) (last_id : Int)
        (page : List RawRec) (r : RawRec),
      api last_id = page → page.getLast? = some r → page.length < bsz →
      fetch_neso_data api last_id bsz none (fuel + 1) = (page, r._id, 1))
    ∧ (∀ (api : Int → List RawRec) (bsz m fuel : ℕ) (last_id : Int)
        (page : List RawRec) (r : RawRec),
      api last_id = page → page.getLast? = some r → 0 < m → m ≤ page.length →
      fetch_neso_data api last_id bsz (some m) (fuel + 1) = (page, r._id, 1))
    ∧ (∀ (api : Int → List RawRec) (bsz fuel : ℕ) (last_id : Int)
        (page : List RawRec) (r : RawRec),
      api last_id = page → page.getLast? = some r → page.length = bsz →
      api r._id = [] →
      List.Sorted (fun a b : RawRec => a._id ≤ b._id) page →
      fetch_neso_data api last_id bsz none (fuel + 2) = (page, r._id, 2)
      ∧ ∀ x ∈ page, x._id ≤ r._id) := by
  refine ⟨?_, ?_, ?_, ?_⟩
  · intro api bsz mr fuel last_id h
    simp [fetch_neso_data, fetchLoop, h]
  · intro api bsz fuel last_id page r hpage hlast hlen
    simp [fetch_neso_data, fetchLoop, hpage, hlast, hlen]
  · intro api bsz m fuel last_id page r hpage hlast hm hm'
    simp [fetch_neso_data, fetchLoop, hpage, hlast, hm, hm']
  · intro api bsz fuel last_id page r hpage hlast hlen hempty hsorted
    refine ⟨?_, sorted_le_getLast hsorted hlast⟩
    have hnotlt : ¬ page.length < bsz := by omega
    simp only [fetch_neso_data, fetchLoop, hpage, hlast, List.nil_append]
    rw [if_neg hnotlt]
    simp only [fetchLoop, hempty, List.getLast?_nil]
    simp

/-- A two-page upstream: cursor 0 yields a full page of ids 1, 2; any other
cursor yields nothing. -/
def api0 : Int → List RawRec := fun c => if c = 0 then [⟨1⟩, ⟨2⟩] else []

/-- **C4 witness** The scenario at a concrete upstream: batch size 2, page 1
= ids [1, 2], page 2 empty → fetch stops after page 2 with page 1's records
and cursor 2. -/
theorem C4_fetch_loop_behaviour_witness :
    fetch_neso_data api0 0 2 none 2 = ([⟨1⟩, ⟨2⟩], 2, 2)
    ∧ ∀ x ∈ [(⟨1⟩ : RawRec), ⟨2⟩], x._id ≤ (2 : Int) :=
  C4_fetch_loop_behaviour.2.2.2 api0 2 0 0 [⟨1⟩, ⟨2⟩] ⟨2⟩
    (by decide) (by decide) (by decide) (by decide) (by decide)

/-- **C7** For every wrapped-pipeline outcome, the run tracker finalizes the
run-history row: the stop time is always set and the start time kept; on an
exception, `success = false`, the exception's message is recorded as the
error string, and the same exception is re-raised; on success, `success =
true` and the result is returned unchanged. -/
theorem C7_run_tracker_finalizes (outcome : Except String PipeResult) (t0 t1 : Int) :
    (pipeline_run_tracker outcome t0 t1).2 = outcome
    ∧ (pipeline_run_tracker outcome t0 t1).1.run_start = t0
    ∧ (pipeline_run_tracker outcome t0 t1).1.run_stop = some t1
    ∧ (pipeline_run_tracker outcome t0 t1).1.success =
        (match outcome with | .ok _ => true | .error _ => false)
    ∧ (pipeline_run_tracker outcome t0 t1).1.error_message =
        (match outcome with | .ok _ => none | .error e => some e) := by
  cases outcome <;> simp [pipeline_run_tracker]

/-- **C8** When the fetcher returns zero records for the store's cursor, the
run short-circuits: the Transformer and the Loader are not invoked, the
store is unchanged, the metrics are `total_fetched = 0`, `valid_records =
0`, `last_fetched_id = cursor` (the maximum id already stored, or 0), and
the tracked run-history row records those metrics with `success = true`. -/
theorem C8_zero_records_short_circuit (api : Int → List Row) (store : List Row)
    (fuel : ℕ) (t0 t1 : Int)
    (h : api (last_id_of store) = []) :
    run_pipeline api store (fuel + 1) =
      { result := { total_fetched := 0, valid_records := 0,
                    last_fetched_id := last_id_of store },
        store := store, transformCalls := 0, loaderCalls := 0 }
    ∧ ((pipeline_run_tracker (.ok (run_pipeline api store (fuel + 1)).result) t0 t1).1.success
        = true
      ∧ (pipeline_run_tracker (.ok (run_pipeline api store (fuel + 1)).result) t0 t1).1.total_fetched
        = 0
      ∧ (pipeline_run_tracker (.ok (run_pipeline api store (fuel + 1)).result) t0 t1).1.valid_records
        = 0
      ∧ (pipeline_run_tracker (.ok (run_pipeline api store (fuel + 1)).result) t0 t1).1.last_fetched_id
        = some (last_id_of store)) := by
  have hrun : run_pipeline api store (fuel + 1) =
      { result := { total_fetched := 0, valid_records := 0,
                    last_fetched_id := last_id_of store },
        store := store, transformCalls := 0, loaderCalls := 0 } := by
    simp [run_pipeline, fetchLoop, h]
  exact ⟨hrun, by rw [hrun]; simp [pipeline_run_tracker],
         by rw [hrun]; simp [pipeline_run_tracker],
         by rw [hrun]; simp [pipeline_run_tracker],
         by rw [hrun]; simp [pipeline_run_tracker]⟩

/-- **C8 witness** The short-circuit at a concrete empty upstream and empty
store: cursor 0, zero metrics, `success = true`. -/
theorem C8_zero_records_short_circuit_witness :
    run_pipeline (fun _ => []) [] 1 =
      { result := { total_fetched := 0, valid_records := 0, last_fetched_id := 0 },
        store := [], transformCalls := 0, loaderCalls := 0 }
    ∧ ((pipeline_run_tracker (.ok (run_pipeline (fun _ => []) [] 1).result) 0 0).1.success = true
      ∧ (pipeline_run_tracker (.ok (run_pipeline (fun _ => []) [] 1).result) 0 0).1.total_fetched = 0
      ∧ (pipeline_run_tracker (.ok (run_pipeline (fun _ => []) [] 1).result) 0 0).1.valid_records = 0
      ∧ (pipeline_run_tracker (.ok (run_pipeline (fun _ => []) [] 1).result) 0 0).1.last_fetched_id
        = some 0) :=
  C8_zero_records_short_circuit (fun _ => []) [] 0 0 0 rfl

/-- **C9** Schema alignment equals: the input columns whose names are
expected, in input order (no reorder, no rename, values untouched),
followed by one null-valued column of the frame's height for each missing
expected name; consequently every missing expected column appears as a null
column, every output column's name is expected, and every expected input
column survives unchanged. -/
theorem C9_align_schema (df : List NamedCol) (expected : List String) :
    align_schema df expected
      = df.filter (fun p => expected.contains p.1)
        ++ (expected.filter (fun c => !(df.any (fun p => p.1 == c)))).map
            (fun c => (c, List.replicate (frameHeight df) Val.null))
    ∧ (∀ c ∈ expected, (∀ col, (c, col) ∉ df) →
        (c, List.replicate (frameHeight df) Val.null) ∈ align_schema df expected)
    ∧ (∀ p ∈ align_schema df expected, p.1 ∈ expected)
    ∧ (∀ p ∈ df, p.1 ∈ expected → p ∈ align_schema df expected) := by
  have hmain : align_schema df expected
      = df.filter (fun p => expected.contains p.1)
        ++ (expected.filter (fun c => !(df.any (fun p => p.1 == c)))).map
            (fun c => (c, List.replicate (frameHeight df) Val.null)) := by
    unfold align_schema
    rw [List.filter_append]
    congr 1
    apply List.filter_eq_self.mpr
    intro p hp
    rcases List.mem_map.mp hp with ⟨c, hc, rfl⟩
    have hce : c ∈ expected := (List.mem_filter.mp hc).1
    simp [List.contains, hce]
  refine ⟨hmain, ?_, ?_, ?_⟩
  · intro c hc hnone
    rw [hmain]
    apply List.mem_append_right
    apply List.mem_map.mpr
    refine ⟨c, List.mem_filter.mpr ⟨hc, ?_⟩, rfl⟩
    simp only [Bool.not_eq_eq_eq_not, Bool.not_true, List.any_eq_false, beq_iff_eq]
    intro p hp hfst
    exact hnone p.2 (by rw [← hfst]; simpa using hp)
  · intro p hp
    rw [hmain] at hp
    rcases List.mem_append.mp hp with hp | hp
    · have hq := (List.mem_filter.mp hp).2
      simpa [List.contains] using hq
    · rcases List.mem_map.mp hp with ⟨c, hc, rfl⟩
      exact (List.mem_filter.mp hc).1
  · intro p hp hexp
    rw [hmain]
    apply List.mem_append_left
    exact List.mem_filter.mpr ⟨hp, by simp [List.contains, hexp]⟩

/-- **C9 witness** Alignment at a concrete frame: input columns A (kept,
values untouched) and X (dropped), expected [A, B] with B added as a null
column of height 1. -/
theorem C9_align_schema_witness :
    align_schema [("A", [Val.fin 1]), ("X", [Val.fin 2])] ["A", "B"]
      = [("A", [Val.fin 1]), ("B", [Val.null])]
    ∧ ("B", [Val.null]) ∈ align_schema [("A", [Val.fin 1]), ("X", [Val.fin 2])] ["A", "B"]
    ∧ ("A", [Val.fin 1]) ∈ align_schema [("A", [Val.fin 1]), ("X", [Val.fin 2])] ["A", "B"] := by
  have h := C9_align_schema [("A", [Val.fin 1]), ("X", [Val.fin 2])] ["A", "B"]
  refine ⟨?_, ?_, ?_⟩
  · rw [h.1]; decide
  · exact h.2.1 "B" (by decide) (fun col hcol => by simp at hcol)
  · exact h.2.2.2 ("A", [Val.fin 1]) (by decide) (by decide)

/-! ## Percentage-reconciliation characterization -/

/-- The row-level effect of the whole fuel loop of
`_validate_perc_consistency` (helper for proofs). -/
def reconRow (tol : ℚ) (r : Row) : Row :=
  Fuel.all.foldl (fun r f => applyFuel tol f r) r

/-- The new percentage cell as a function of the three cells it reads:
absolute, total, stored (helper for proofs). -/
def npOf (tol : ℚ) (a g p : Val) : Val :=
  match Val.gtQ (Val.absV (Val.subV (Val.mulV (Val.divV a g) (Val.fin 100)) p)) tol with
  | none => Val.null
  | some true => Val.mulV (Val.divV a g) (Val.fin 100)
  | some false => p

theorem applyFuel_id (tol : ℚ) (f : Fuel) (r : Row) : (applyFuel tol f r).id = r.id := rfl

theorem applyFuel_datetime (tol : ℚ) (f : Fuel) (r : Row) :
    (applyFuel tol f r).datetime = r.datetime := rfl

theorem applyFuel_abs (tol : ℚ) (f : Fuel) (r : Row) : (applyFuel tol f r).abs = r.abs := rfl

theorem applyFuel_generation (tol : ℚ) (f : Fuel) (r : Row) :
    (applyFuel tol f r).generation = r.generation := rfl

theorem applyFuel_extra (tol : ℚ) (f : Fuel) (r : Row) :
    (applyFuel tol f r).extra = r.extra := rfl

theorem applyFuel_perc_self (tol : ℚ) (f : Fuel) (r : Row) :
    (applyFuel tol f r).perc f = npOf tol (r.abs f) r.generation (r.perc f) := by
  simp [applyFuel, npOf, newPerc, percDiff, calcPerc]

theorem applyFuel_perc_ne (tol : ℚ) {f g : Fuel} (h : g ≠ f) (r : Row) :
    (applyFuel tol f r).perc g = r.perc g := by
  simp [applyFuel, h]

theorem foldl_applyFuel_abs (tol : ℚ) :
    ∀ (fs : List Fuel) (r : Row), (fs.foldl (fun r f => applyFuel tol f r) r).abs = r.abs
  | [], _ => rfl
  | f :: fs, r => foldl_applyFuel_abs tol fs (applyFuel tol f r)

theorem foldl_applyFuel_generation (tol : ℚ) :
    ∀ (fs : List Fuel) (r : Row),
      (fs.foldl (fun r f => applyFuel tol f r) r).generation = r.generation
  | [], _ => rfl
  | f :: fs, r => foldl_applyFuel_generation tol fs (applyFuel tol f r)

theorem foldl_applyFuel_id (tol : ℚ) :
    ∀ (fs : List Fuel) (r : Row), (fs.foldl (fun r f => applyFuel tol f r) r).id = r.id
  | [], _ => rfl
  | f :: fs, r => foldl_applyFuel_id tol fs (applyFuel tol f r)

theorem foldl_applyFuel_datetime (tol : ℚ) :
    ∀ (fs : List Fuel) (r : Row),
      (fs.foldl (fun r f => applyFuel tol f r) r).datetime = r.datetime
  | [], _ => rfl
  | f :: fs, r => foldl_applyFuel_datetime tol fs (applyFuel tol f r)

theorem foldl_applyFuel_extra (tol : ℚ) :
    ∀ (fs : List Fuel) (r : Row), (fs.foldl (fun r f => applyFuel tol f r) r).extra = r.extra
  | [], _ => rfl
  | f :: fs, r => foldl_applyFuel_extra tol fs (applyFuel tol f r)

theorem foldl_applyFuel_perc_notmem (tol : ℚ) {f : Fuel} :
    ∀ {fs : List Fuel} (r : Row), f ∉ fs →
      (fs.foldl (fun r f => applyFuel tol f r) r).perc f = r.perc f
  | [], _, _ => rfl
  | g :: fs, r, hf => by
      have hne : f ≠ g := fun h => hf (h ▸ List.mem_cons_self g fs)
      have hfs : f ∉ fs := fun h => hf (List.mem_cons_of_mem g h)
      rw [List.foldl_cons, foldl_applyFuel_perc_notmem tol (applyFuel tol g r) hfs,
        applyFuel_perc_ne tol hne]

theorem foldl_applyFuel_perc_mem (tol : ℚ) {f : Fuel} :
    ∀ {fs : List Fuel} (r : Row), fs.Nodup → f ∈ fs →
      (fs.foldl (fun r f => applyFuel tol f r) r).perc f
        = npOf tol (r.abs f) r.generation (r.perc f)
  | [], _, _, hf => absurd hf (List.not_mem_nil f)
  | g :: fs, r, hnd, hf => by
      rcases List.mem_cons.mp hf with rfl | hf
      · have hnot : f ∉ fs := (List.nodup_cons.mp hnd).1
        rw [List.foldl_cons, foldl_applyFuel_perc_notmem tol _ hnot, applyFuel_perc_self]
      · have hnd' : fs.Nodup := (List.nodup_cons.mp hnd).2
        have hne : f ≠ g := fun h =>
          (List.nodup_cons.mp hnd).1 (h ▸ hf)
        rw [List.foldl_cons, foldl_applyFuel_perc_mem tol (applyFuel tol g r) hnd' hf,
          applyFuel_perc_ne tol hne, applyFuel_abs, applyFuel_generation]

theorem Fuel_all_nodup : Fuel.all.Nodup := by decide

theorem Fuel_mem_all (f : Fuel) : f ∈ Fuel.all := by cases f <;> decide

/-- The reconciled percentage of fuel `f` depends only on that fuel's
absolute, the total, and that fuel's stored percentage. -/
theorem reconRow_perc (tol : ℚ) (r : Row) (f : Fuel) :
    (reconRow tol r).perc f = npOf tol (r.abs f) r.generation (r.perc f) :=
  foldl_applyFuel_perc_mem tol r Fuel_all_nodup (Fuel_mem_all f)

theorem reconRow_abs (tol : ℚ) (r : Row) : (reconRow tol r).abs = r.abs :=
  foldl_applyFuel_abs tol Fuel.all r

theorem reconRow_generation (tol : ℚ) (r : Row) :
    (reconRow tol r).generation = r.generation :=
  foldl_applyFuel_generation tol Fuel.all r

theorem reconRow_id (tol : ℚ) (r : Row) : (reconRow tol r).id = r.id :=
  foldl_applyFuel_id tol Fuel.all r

theorem reconRow_datetime (tol : ℚ) (r : Row) : (reconRow tol r).datetime = r.datetime :=
  foldl_applyFuel_datetime tol Fuel.all r

theorem reconRow_extra (tol : ℚ) (r : Row) : (reconRow tol r).extra = r.extra :=
  foldl_applyFuel_extra tol Fuel.all r

/-- The frame returned by `_validate_perc_consistency` is the row-wise map
of the per-row reconciliation. -/
theorem validate_perc_consistency_fst (l : List Row) (tol : ℚ) :
    (validate_perc_consistency l tol).1 = l.map (reconRow tol) := by
  suffices h : ∀ (fs : List Fuel) (l : List Row) (n : ℕ),
      (fs.foldl (reconStep tol) (l, n)).1
        = l.map (fun r => fs.foldl (fun r f => applyFuel tol f r) r) by
    simpa [validate_perc_consistency, reconRow] using h Fuel.all l 0
  intro fs
  induction fs with
  | nil => intro l n; simp
  | cons f fs ih =>
      intro l n
      simp only [List.foldl_cons, reconStep]
      rw [ih]
      simp [List.map_map, Function.comp]

/-- The row whose `GENERATION` total is zero while `WIND = 50` and
`WIND_perc = 10`: the reconciliation divides by zero on it. -/
def rowZ : Row := sampleRow 1 0 (Val.fin 50) (Val.fin 10) (Val.fin 0)

/-- The spec's scenario row: `GENERATION = 200`, `WIND = 50`,
`WIND_perc = 99`. -/
def rowW : Row := sampleRow 1 0 (Val.fin 50) (Val.fin 99) (Val.fin 200)

/-- **C1 (amended)** After the reconciliation stage, every row whose
calculated percentage `100 * absolute / total` is finite and whose incoming
stored percentage is finite satisfies
`|100 * absolute / total - stored| ≤ tolerance` (tolerance `≥ 0`): the
stored percentage is replaced by the calculated one exactly when their
difference exceeds the tolerance, and kept unchanged otherwise.  (Rows
with a zero or null total, or null/non-finite cells, are exempt — see the
division-guard defect C10.) -/
theorem C1_perc_reconciliation (l : List Row) (tol : ℚ) (h0 : 0 ≤ tol)
    (i : ℕ) (hi : i < l.length) (f : Fuel) (c s : ℚ)
    (hc : calcPerc (l.get ⟨i, hi⟩) f = Val.fin c)
    (hs : (l.get ⟨i, hi⟩).perc f = Val.fin s) :
    ∃ hj : i < (validate_perc_consistency l tol).1.length,
      ((validate_perc_consistency l tol).1.get ⟨i, hj⟩).perc f
          = (if tol < |c - s| then Val.fin c else Val.fin s)
      ∧ Val.leQ (Val.absV (Val.subV (Val.fin c)
            (((validate_perc_consistency l tol).1.get ⟨i, hj⟩).perc f))) tol = true := by
  have hlen : (validate_perc_consistency l tol).1.length = l.length := by
    rw [validate_perc_consistency_fst]; exact List.length_map l _
  refine ⟨hlen ▸ hi, ?_⟩
  have hget : (validate_perc_consistency l tol).1.get ⟨i, hlen ▸ hi⟩
      = reconRow tol (l.get ⟨i, hi⟩) := by
    have := List.get_of_eq (validate_perc_consistency_fst l tol) ⟨i, hlen ▸ hi⟩
    rw [this, List.get_map]
  rw [hget, reconRow_perc]
  have hcalc : Val.mulV (Val.divV ((l.get ⟨i, hi⟩).abs f) (l.get ⟨i, hi⟩).generation)
      (Val.fin 100) = Val.fin c := hc
  rw [npOf, hcalc, hs]
  simp only [Val.subV, Val.absV, Val.gtQ]
  by_cases hlt : tol < |c - s|
  · rw [decide_eq_true hlt, if_pos hlt]
    refine ⟨rfl, ?_⟩
    simp only [Val.subV, Val.absV, Val.leQ, sub_self, abs_zero]
    exact decide_eq_true h0
  · rw [decide_eq_false hlt, if_neg hlt]
    refine ⟨rfl, ?_⟩
    simp only [Val.subV, Val.absV, Val.leQ]
    exact decide_eq_true (le_of_not_lt hlt)

/-- **C1 witness** The spec's scenario: `GENERATION = 200`, `WIND = 50`,
`WIND_perc = 99`, tolerance 1 → the stored percentage is replaced by the
calculated `25` and the reconciled row meets the bound. -/
theorem C1_perc_reconciliation_witness :
    ∃ hj : 0 < (validate_perc_consistency [rowW] 1).1.length,
      ((validate_perc_consistency [rowW] 1).1.get ⟨0, hj⟩).perc Fuel.WIND
          = (if (1:ℚ) < |25 - 99| then Val.fin 25 else Val.fin 99)
      ∧ Val.leQ (Val.absV (Val.subV (Val.fin 25)
            (((validate_perc_consistency [rowW] 1).1.get ⟨0, hj⟩).perc Fuel.WIND))) 1 = true :=
  C1_perc_reconciliation [rowW] 1 (by norm_num) 0 (by decide) Fuel.WIND 25 99
    (by with_unfolding_all decide) (by with_unfolding_all decide)

/-- **C1 counterexample** The claim as stated fails on a batch containing a
zero-total row: after reconciliation, the single row of `[rowZ]` violates
`|100 * WIND / GENERATION - WIND_perc| ≤ 1` (the stage writes `inf` and the
residual is NaN, which does not satisfy the bound). -/
theorem C1_perc_reconciliation_counterexample :
    ¬ (∀ r ∈ (validate_perc_consistency [rowZ] 1).1,
        Val.leQ (Val.absV (Val.subV (calcPerc r Fuel.WIND) (r.perc Fuel.WIND))) 1 = true) := by
  with_unfolding_all decide

/-- **C10** The division in percentage reconciliation is unguarded: on the
batch `[rowZ]` — total `GENERATION = 0.0`, absolute `WIND = 50`, stored
`WIND_perc = 10` differing from the quotient by more than the tolerance —
the transformer neither raises nor drops the row, and writes the non-finite
value `inf` into the row's `WIND_perc` column. -/
theorem C10_unguarded_zero_division :
    rowZ.generation = Val.fin 0
    ∧ rowZ.abs Fuel.WIND = Val.fin 50
    ∧ rowZ.perc Fuel.WIND = Val.fin 10
    ∧ (transform_records [rowZ]).map (fun r => r.perc Fuel.WIND) = [Val.inf]
    ∧ Val.isFinite Val.inf = false :=
  ⟨rfl, rfl, rfl, by with_unfolding_all decide, rfl⟩

/-! ## Deduplication lemmas -/

theorem obLe_refl (a : Option Int) : obLe a a = true := by
  rcases a with _ | x <;> simp [obLe]

theorem obLe_antisymm : ∀ {a b : Option Int}, obLe a b = true → obLe b a = true → a = b := by
  intro a b h₁ h₂
  rcases a with _ | x <;> rcases b with _ | y <;> simp [obLe] at * <;> omega

theorem keepLastBy_sublist {α κ : Type} [DecidableEq κ] (key : α → κ) :
    ∀ l : List α, List.Sublist (keepLastBy key l) l
  | [] => List.Sublist.slnil
  | x :: xs => by
      rw [keepLastBy]
      split
      · exact (keepLastBy_sublist key xs).cons x
      · exact (keepLastBy_sublist key xs).cons₂ x

theorem keepLastBy_keys_nodup {α κ : Type} [DecidableEq κ] (key : α → κ) :
    ∀ l : List α, ((keepLastBy key l).map key).Nodup
  | [] => by simp [keepLastBy]
  | x :: xs => by
      rw [keepLastBy]
      split
      · exact keepLastBy_keys_nodup key xs
      · rename_i hany
        simp only [List.map_cons, List.nodup_cons]
        refine ⟨?_, keepLastBy_keys_nodup key xs⟩
        intro hmem
        rcases List.mem_map.mp hmem with ⟨b, hb, hkb⟩
        exact hany (List.any_eq_true.mpr
          ⟨b, (keepLastBy_sublist key xs).subset hb, by simp [hkb]⟩)

theorem keepLastBy_key_surj {α κ : Type} [DecidableEq κ] (key : α → κ) :
    ∀ l : List α, ∀ a ∈ l, ∃ b ∈ keepLastBy key l, key b = key a
  | [], a, ha => absurd ha (List.not_mem_nil a)
  | x :: xs, a, ha => by
      rw [keepLastBy]
      rcases List.mem_cons.mp ha with heq | ha
      · rw [heq]
        split
        · rename_i hany
          rcases List.any_eq_true.mp hany with ⟨y, hy, hky⟩
          rcases keepLastBy_key_surj key xs y hy with ⟨b, hb, hkb⟩
          exact ⟨b, hb, by rw [hkb]; simpa using hky⟩
        · exact ⟨x, List.mem_cons_self x _, rfl⟩
      · rcases keepLastBy_key_surj key xs a ha with ⟨b, hb, hkb⟩
        split
        · exact ⟨b, hb, hkb⟩
        · exact ⟨b, List.mem_cons_of_mem x hb, hkb⟩

theorem keepLastBy_eq_self {α κ : Type} [DecidableEq κ] (key : α → κ) :
    ∀ l : List α, (l.map key).Nodup → keepLastBy key l = l
  | [], _ => rfl
  | x :: xs, h => by
      simp only [List.map_cons, List.nodup_cons] at h
      have hany : xs.any (fun y => key y = key x) = false := by
        apply List.any_eq_false.mpr
        intro y hy
        simp only [decide_eq_true_eq]
        intro hk
        exact h.1 (List.mem_map.mpr ⟨y, hy, hk⟩)
      rw [keepLastBy, if_neg (by simp [hany]), keepLastBy_eq_self key xs h.2]

/-- In a sorted list, the element kept for a key is `le`-maximal among all
elements sharing that key. -/
theorem keepLastBy_max {α κ : Type} [DecidableEq κ] (key : α → κ)
    (le : α → α → Prop) (hrefl : ∀ a, le a a) :
    ∀ l : List α, List.Sorted le l → ∀ b ∈ keepLastBy key l, ∀ a ∈ l,
      key a = key b → le a b
  | [], _, b, hb, _, _, _ => absurd hb (by simp [keepLastBy])
  | x :: xs, hs, b, hb, a, ha, hk => by
      have hs' : List.Sorted le xs := hs.of_cons
      have hx : ∀ y ∈ xs, le x y := List.rel_of_sorted_cons hs
      rw [keepLastBy] at hb
      by_cases hany : xs.any (fun y => key y = key x) = true
      · rw [if_pos hany] at hb
        rcases List.mem_cons.mp ha with heq | ha
        · rw [heq]
          exact hx b ((keepLastBy_sublist key xs).subset hb)
        · exact keepLastBy_max key le hrefl xs hs' b hb a ha hk
      · rw [if_neg hany] at hb
        rcases List.mem_cons.mp hb with hbeq | hb
        · rcases List.mem_cons.mp ha with haeq | ha
          · rw [haeq, ← hbeq]
            exact hrefl b
          · refine absurd (List.any_eq_true.mpr ⟨a, ha, ?_⟩) hany
            simp only [decide_eq_true_eq]
            rw [hk, hbeq]
        · rcases List.mem_cons.mp ha with haeq | ha
          · rw [haeq]
            exact hx b ((keepLastBy_sublist key xs).subset hb)
          · exact keepLastBy_max key le hrefl xs hs' b hb a ha hk

/-- Two `idLe`-sorted lists that are permutations of each other with
duplicate-free identifiers are equal. -/
theorem perm_sorted_id_nodup_eq :
    ∀ {l₁ l₂ : List Row}, l₁.Perm l₂ →
      List.Sorted idLe l₁ → List.Sorted idLe l₂ →
      (l₁.map (fun r => r.id)).Nodup → l₁ = l₂ := by
  intro l₁ l₂ hp hs₁ hs₂ hnd₁
  have hnd₂ : (l₂.map (fun r => r.id)).Nodup := ((hp.map _)).nodup hnd₁
  haveI : IsAntisymm Row (fun a b => idLe a b ∧ a.id ≠ b.id) := by
    constructor
    intro a b hab hba
    exact absurd (obLe_antisymm hab.1 hba.1) hab.2
  have hstrict : ∀ {l : List Row},
      List.Sorted idLe l → (l.map (fun r => r.id)).Nodup →
      List.Sorted (fun a b => idLe a b ∧ a.id ≠ b.id) l := by
    intro l hs hnd
    have hne : l.Pairwise (fun a b => a.id ≠ b.id) := by
      rwa [List.Nodup, List.pairwise_map] at hnd
    exact hs.and hne
  exact List.eq_of_perm_of_sorted hp (hstrict hs₁ hnd₁) (hstrict hs₂ hnd₂)

/-- **C2 (amended)** Deduplication first removes duplicate identifiers
keeping, among rows sharing an identifier, one with the maximal timestamp;
then removes duplicate timestamps keeping, among rows sharing a timestamp,
one with the maximal identifier.  The output: identifiers are unique (hence
at most — not exactly — one row per identifier: an identifier can lose its
only surviving row to the timestamp step), timestamps are unique, the rows
are in ascending-identifier order, and every output row comes from the
batch. -/
theorem C2_deduplicate (l : List Row) :
    ((deduplicate l).1.map (fun r => r.id)).Nodup
    ∧ ((deduplicate l).1.map (fun r => r.datetime)).Nodup
    ∧ List.Sorted idLe (deduplicate l).1
    ∧ (∀ r ∈ (deduplicate l).1, r ∈ l)
    ∧ (∀ r ∈ (deduplicate l).1, ∀ a ∈ l, a.id = r.id →
        obLe a.datetime r.datetime = true)
    ∧ (∀ r ∈ (deduplicate l).1, ∀ a ∈ keepLastBy (fun r => r.id) (List.insertionSort dtLe l),
        a.datetime = r.datetime → obLe a.id r.id = true) := by
  have hout : (deduplicate l).1
      = keepLastBy (fun r => r.datetime)
          (List.insertionSort idLe (keepLastBy (fun r => r.id) (List.insertionSort dtLe l)))
      := rfl
  have hsubs2 : List.Sublist
      (keepLastBy (fun r => r.datetime)
        (List.insertionSort idLe (keepLastBy (fun r => r.id) (List.insertionSort dtLe l))))
      (List.insertionSort idLe (keepLastBy (fun r => r.id) (List.insertionSort dtLe l))) :=
    keepLastBy_sublist _ _
  have hd1nodup : ((keepLastBy (fun r => r.id) (List.insertionSort dtLe l)).map
      (fun r => r.id)).Nodup := keepLastBy_keys_nodup _ _
  have hperm2 : (List.insertionSort idLe
      (keepLastBy (fun r => r.id) (List.insertionSort dtLe l))).Perm
        (keepLastBy (fun r => r.id) (List.insertionSort dtLe l)) :=
    List.perm_insertionSort _ _
  have hs2nodup : ((List.insertionSort idLe
      (keepLastBy (fun r => r.id) (List.insertionSort dtLe l))).map (fun r => r.id)).Nodup :=
    ((hperm2.map _).symm).nodup hd1nodup
  have hsorted2 : List.Sorted idLe (List.insertionSort idLe
      (keepLastBy (fun r => r.id) (List.insertionSort dtLe l))) :=
    List.sorted_insertionSort idLe _
  have hsorted1 : List.Sorted dtLe (List.insertionSort dtLe l) :=
    List.sorted_insertionSort dtLe l
  refine ⟨?_, ?_, ?_, ?_, ?_, ?_⟩
  · rw [hout]
    exact List.Nodup.sublist (hsubs2.map _) hs2nodup
  · rw [hout]
    exact keepLastBy_keys_nodup _ _
  · rw [hout]
    exact List.Pairwise.sublist hsubs2 hsorted2
  · intro r hr
    rw [hout] at hr
    have hrd1 : r ∈ keepLastBy (fun r => r.id) (List.insertionSort dtLe l) :=
      hperm2.subset (hsubs2.subset hr)
    have hrs1 : r ∈ List.insertionSort dtLe l := (keepLastBy_sublist _ _).subset hrd1
    exact (List.perm_insertionSort dtLe l).subset hrs1
  · intro r hr a ha haid
    rw [hout] at hr
    have hrd1 : r ∈ keepLastBy (fun r => r.id) (List.insertionSort dtLe l) :=
      hperm2.subset (hsubs2.subset hr)
    have has1 : a ∈ List.insertionSort dtLe l := (List.mem_insertionSort _).mpr ha
    exact keepLastBy_max (fun r => r.id) dtLe (fun r => obLe_refl r.datetime)
      (List.insertionSort dtLe l) hsorted1 r hrd1 a has1 haid
  · intro r hr a ha hadt
    rw [hout] at hr
    have has2 : a ∈ List.insertionSort idLe
        (keepLastBy (fun r => r.id) (List.insertionSort dtLe l)) :=
      (List.mem_insertionSort _).mpr ha
    exact keepLastBy_max (fun r => r.datetime) idLe (fun r => obLe_refl r.id)
      _ hsorted2 r hr a has2 hadt

/-- The three-row batch refuting one-row-per-identifier: two rows share
identifier 1, a third row (identifier 2) shares the later timestamp. -/
def batch3 : List Row :=
  [sampleRow 1 10 (Val.fin 0) (Val.fin 0) (Val.fin 100),
   sampleRow 1 11 (Val.fin 0) (Val.fin 0) (Val.fin 100),
   sampleRow 2 11 (Val.fin 0) (Val.fin 0) (Val.fin 100)]

/-- **C2 counterexample** A batch with a repeated identifier whose output
retains ZERO rows for that identifier: the id-dedup step keeps (1, 11:00),
and the timestamp-dedup step then drops it in favour of (2, 11:00) — so the
output does not retain exactly one row per identifier. -/
theorem C2_deduplicate_counterexample :
    (batch3.map (fun r => r.id)) = [some 1, some 1, some 2]
    ∧ (deduplicate batch3).1.countP (fun r => r.id = some 1) = 0
    ∧ (deduplicate batch3).1.map (fun r => r.id) = [some 2] := by
  refine ⟨rfl, ?_, ?_⟩ <;> with_unfolding_all decide

/-- The spec's dedup scenario batch: two rows with identifier 1, at 10:00
and 11:00. -/
def batch2 : List Row :=
  [sampleRow 1 10 (Val.fin 0) (Val.fin 0) (Val.fin 100),
   sampleRow 1 11 (Val.fin 0) (Val.fin 0) (Val.fin 100)]

/-- **C2 witness** The amended statement at concrete batches: unique ids
and ascending id order on `batch3`, and on `batch2` (the spec's dedup
scenario) the surviving row for identifier 1 has a timestamp at least that
of the dropped duplicate. -/
theorem C2_deduplicate_witness :
    ((deduplicate batch3).1.map (fun r => r.id)).Nodup
    ∧ List.Sorted idLe (deduplicate batch3).1
    ∧ obLe (sampleRow 1 10 (Val.fin 0) (Val.fin 0) (Val.fin 100)).datetime
        (sampleRow 1 11 (Val.fin 0) (Val.fin 0) (Val.fin 100)).datetime = true :=
  ⟨(C2_deduplicate batch3).1,
   (C2_deduplicate batch3).2.2.1,
   (C2_deduplicate batch2).2.2.2.2.1
     (sampleRow 1 11 (Val.fin 0) (Val.fin 0) (Val.fin 100))
     (by with_unfolding_all decide)
     (sampleRow 1 10 (Val.fin 0) (Val.fin 0) (Val.fin 100))
     (by decide)
     (by decide)⟩

/-! ## Upsert idempotence lemmas -/

/-- A row with the given `_id` key exists in the store (helper). -/
def hasId (s : List Row) (k : Option Int) : Prop := ∃ t ∈ s, t.id = k

/-- The last row of `T` carrying `row`'s key, if any (helper: the net effect
of sequentially upserting `T` on a store row). -/
def applyLast (T : List Row) (row : Row) : Row :=
  match (T.filter (fun t => t.id = row.id)).getLast? with
  | some t => t
  | none => row

theorem hasId_upsertRow_self (s : List Row) (r : Row) : hasId (upsertRow s r) r.id := by
  unfold upsertRow
  split
  · rename_i hany
    rcases List.any_eq_true.mp hany with ⟨t, ht, htid⟩
    simp only [decide_eq_true_eq] at htid
    exact ⟨r, List.mem_map.mpr ⟨t, ht, by rw [if_pos htid]⟩, rfl⟩
  · exact ⟨r, List.mem_append_right _ (List.mem_singleton.mpr rfl), rfl⟩

theorem hasId_upsertRow_mono {s : List Row} {k : Option Int} (h : hasId s k) (r : Row) :
    hasId (upsertRow s r) k := by
  rcases h with ⟨t, ht, htid⟩
  unfold upsertRow
  split
  · by_cases htr : t.id = r.id
    · exact ⟨r, List.mem_map.mpr ⟨t, ht, by rw [if_pos htr]⟩, by rw [← htr, htid]⟩
    · exact ⟨t, List.mem_map.mpr ⟨t, ht, by rw [if_neg htr]⟩, htid⟩
  · exact ⟨t, List.mem_append_left _ ht, htid⟩

theorem hasId_foldl_mono {k : Option Int} :
    ∀ (T : List Row) {s : List Row}, hasId s k → hasId (T.foldl upsertRow s) k
  | [], _, h => h
  | r :: T, s, h => hasId_foldl_mono T (hasId_upsertRow_mono h r)

/-- Every upserted key is present afterwards. -/
theorem hasId_foldl_upsert :
    ∀ (T : List Row) (s : List Row), ∀ r ∈ T, hasId (T.foldl upsertRow s) r.id
  | [], _, r, hr => absurd hr (List.not_mem_nil r)
  | x :: T, s, r, hr => by
      rcases List.mem_cons.mp hr with heq | hr
      · rw [heq, List.foldl_cons]
        exact hasId_foldl_mono T (hasId_upsertRow_self s x)
      · exact hasId_foldl_upsert T (upsertRow s x) r hr

theorem applyLast_nil (row : Row) : applyLast [] row = row := rfl

/-- Splitting one upsert off `applyLast`. -/
theorem applyLast_cons (r : Row) (T : List Row) (row : Row) :
    applyLast T (if row.id = r.id then r else row) = applyLast (r :: T) row := by
  by_cases hid : row.id = r.id
  · rw [if_pos hid]
    unfold applyLast
    have hkey : (fun t : Row => decide (t.id = r.id)) = (fun t : Row => decide (t.id = row.id)) := by
      funext t
      rw [hid]
    rw [List.filter_cons, if_pos (by simp [hid])]
    rcases hfl : T.filter (fun t => t.id = row.id) with _ | ⟨y, ys⟩
    · rw [hkey, hfl]
      rfl
    · rw [hkey, hfl]
      have hcc : (r :: y :: ys).getLast? = (y :: ys).getLast? := List.getLast?_cons_cons
      rw [hcc]
      rcases hz : (y :: ys).getLast? with _ | z
      · exact absurd (List.getLast?_eq_none_iff.mp hz) (by simp)
      · rfl
  · rw [if_neg hid]
    unfold applyLast
    rw [List.filter_cons,
      if_neg (by simp only [decide_eq_true_eq]; exact fun h => hid h.symm)]

/-- Upserting a batch whose keys are all present only overwrites in place:
the store becomes a pointwise map. -/
theorem foldl_upsert_of_present :
    ∀ (T : List Row) (s : List Row), (∀ r ∈ T, hasId s r.id) →
      T.foldl upsertRow s = s.map (applyLast T)
  | [], s, _ => by
      have hfun : applyLast [] = fun row => row := funext applyLast_nil
      rw [hfun]
      exact (List.map_id s).symm
  | r :: T, s, hpres => by
      have hr : hasId s r.id := hpres r (List.mem_cons_self r T)
      have hany : s.any (fun t => t.id = r.id) = true := by
        rcases hr with ⟨t, ht, htid⟩
        exact List.any_eq_true.mpr ⟨t, ht, by simp [htid]⟩
      rw [List.foldl_cons]
      have hstep : upsertRow s r = s.map (fun t => if t.id = r.id then r else t) := by
        unfold upsertRow
        rw [if_pos hany]
      rw [hstep]
      have hpres' : ∀ r' ∈ T, hasId (s.map (fun t => if t.id = r.id then r else t)) r'.id := by
        intro r' hr'
        have : hasId (upsertRow s r) r'.id :=
          hasId_upsertRow_mono (hpres r' (List.mem_cons_of_mem r hr')) r
        rwa [hstep] at this
      rw [foldl_upsert_of_present T _ hpres', List.map_map]
      apply List.map_congr_left
      intro row _
      exact applyLast_cons r T row

/-- Rows of the store after an upsert that do not carry any upserted key
come from the original store. -/
theorem mem_foldl_upsert_of_fresh :
    ∀ (T : List Row) (s : List Row) (row : Row), row ∈ T.foldl upsertRow s →
      (∀ t ∈ T, row.id ≠ t.id) → row ∈ s
  | [], _, _, h, _ => h
  | r :: T, s, row, h, hfresh => by
      have hrow : row ∈ upsertRow s r :=
        mem_foldl_upsert_of_fresh T (upsertRow s r) row h
          (fun t ht => hfresh t (List.mem_cons_of_mem r ht))
      have hne : row.id ≠ r.id := hfresh r (List.mem_cons_self r T)
      unfold upsertRow at hrow
      split at hrow
      · rcases List.mem_map.mp hrow with ⟨t, ht, himg⟩
        by_cases htr : t.id = r.id
        · rw [if_pos htr] at himg
          exact absurd (by rw [← himg]) hne
        · rw [if_neg htr] at himg
          exact himg ▸ ht
      · rcases List.mem_append.mp hrow with h' | h'
        · exact h'
        · rw [List.mem_singleton.mp h'] at hne
          exact absurd rfl hne

/-- Every row of the upserted store equals the row of `upsertRow s r` it
came from when its key is `r`'s. -/
theorem mem_upsertRow_self_key (s : List Row) (r : Row) :
    ∀ row ∈ upsertRow s r, row.id = r.id → row = r := by
  intro row hrow hid
  unfold upsertRow at hrow
  split at hrow
  · rcases List.mem_map.mp hrow with ⟨t, ht, himg⟩
    by_cases htr : t.id = r.id
    · rw [if_pos htr] at himg
      exact himg.symm
    · rw [if_neg htr] at himg
      exact absurd (himg ▸ hid) htr
  · rcases List.mem_append.mp hrow with h' | h'
    · rename_i hany
      exfalso
      exact hany (List.any_eq_true.mpr ⟨row, h', by simpa using hid⟩)
    · exact List.mem_singleton.mp h'

/-- Every row of the store after upserting `T` is already `applyLast T`-fixed. -/
theorem applyLast_fixed_of_mem_foldl :
    ∀ (T : List Row) (s : List Row) (row : Row), row ∈ T.foldl upsertRow s →
      applyLast T row = row
  | [], _, _, _ => rfl
  | r :: T, s, row, h => by
      rw [List.foldl_cons] at h
      have hfix : applyLast T row = row := applyLast_fixed_of_mem_foldl T _ row h
      by_cases hmem : ∃ t ∈ T, row.id = t.id
      · rw [← applyLast_cons r T row]
        by_cases hid : row.id = r.id
        · rw [if_pos hid]
          rcases hmem with ⟨t, ht, htid⟩
          have htmem : t ∈ T.filter (fun u => u.id = row.id) :=
            List.mem_filter.mpr ⟨ht, by simp [htid.symm]⟩
          rcases hgl : (T.filter (fun u => u.id = row.id)).getLast? with _ | y
          · rw [List.getLast?_eq_none_iff.mp hgl] at htmem
            exact absurd htmem (List.not_mem_nil t)
          · have hrow_y : applyLast T row = y := by
              unfold applyLast
              rw [hgl]
            have hkeys : (fun u : Row => decide (u.id = r.id))
                = (fun u : Row => decide (u.id = row.id)) := by
              funext u
              rw [hid]
            have hr_y : applyLast T r = y := by
              unfold applyLast
              rw [hkeys, hgl]
            rw [hr_y, ← hrow_y, hfix]
        · rw [if_neg hid]
          exact hfix
      · push_neg at hmem
        have hrow : row ∈ upsertRow s r :=
          mem_foldl_upsert_of_fresh T (upsertRow s r) row h hmem
        have hfl : T.filter (fun t => t.id = row.id) = [] := by
          apply List.filter_eq_nil_iff.mpr
          intro t ht
          simp only [decide_eq_true_eq]
          exact fun hk => hmem t ht (hk ▸ rfl)
        by_cases hid : row.id = r.id
        · have hrr : row = r := mem_upsertRow_self_key s r row hrow hid
          unfold applyLast
          rw [List.filter_cons, if_pos (by simp [hid]), hfl, hrr]
          rfl
        · unfold applyLast
          rw [List.filter_cons,
            if_neg (by simp only [decide_eq_true_eq]; exact fun hk => hid hk.symm), hfl]
          rfl

/-- Folding the row-level upsert over the chunks equals folding it over the
whole table: the batching does not change the final store state. -/
theorem foldl_chunks_eq (cs : List (List Row)) (s : List Row) :
    cs.foldl (fun s chunk => chunk.foldl upsertRow s) s = cs.flatten.foldl upsertRow s := by
  induction cs generalizing s with
  | nil => rfl
  | cons c cs ih =>
      rw [List.foldl_cons, List.flatten_cons, List.foldl_append, ih]

/-- The loader's final store state is the sequential row-level upsert of the
table. -/
theorem upsert_generation_data_eq_foldl (store T : List Row) :
    upsert_generation_data store T = T.foldl upsertRow store := by
  unfold upsert_generation_data
  rw [foldl_chunks_eq, chunkify_flatten T _ (by norm_num [upsertBatchSize, generationNumCols])]

/-- **C6** Upsert is idempotent against the store: applying
`upsert_generation_data` a second time with an identical table leaves the
entire store — hence its row count and every stored value — unchanged. -/
theorem C6_upsert_idempotent (store T : List Row) :
    upsert_generation_data (upsert_generation_data store T) T
      = upsert_generation_data store T
    ∧ (upsert_generation_data (upsert_generation_data store T) T).length
      = (upsert_generation_data store T).length := by
  have hmain : upsert_generation_data (upsert_generation_data store T) T
      = upsert_generation_data store T := by
    rw [upsert_generation_data_eq_foldl, upsert_generation_data_eq_foldl]
    have hpres : ∀ r ∈ T, hasId (T.foldl upsertRow store) r.id :=
      fun r hr => hasId_foldl_upsert T store r hr
    rw [foldl_upsert_of_present T _ hpres]
    apply List.map_congr_left ?_ |>.trans (List.map_id _)
    intro row hrow
    exact applyLast_fixed_of_mem_foldl T store row hrow
  exact ⟨hmain, by rw [hmain]⟩

/-! ## Reconciliation stability on null-free rows -/

theorem isNull_eq_false_iff (v : Val) : v.isNull = false ↔ v ≠ .null := by
  cases v <;> simp [Val.isNull]

theorem divV_ne_null {a b : Val} (ha : a ≠ .null) (hb : b ≠ .null) :
    Val.divV a b ≠ .null := by
  cases a <;> cases b <;> simp [Val.divV] at * <;> split_ifs <;> simp

theorem mulV_ne_null {a b : Val} (ha : a ≠ .null) (hb : b ≠ .null) :
    Val.mulV a b ≠ .null := by
  cases a <;> cases b <;> simp [Val.mulV] at * <;> split_ifs <;> simp

theorem subV_ne_null {a b : Val} (ha : a ≠ .null) (hb : b ≠ .null) :
    Val.subV a b ≠ .null := by
  cases a <;> cases b <;> simp [Val.subV] at *

theorem absV_ne_null {a : Val} (ha : a ≠ .null) : Val.absV a ≠ .null := by
  cases a <;> simp [Val.absV] at *

theorem gtQ_ne_none {v : Val} (hv : v ≠ .null) (tol : ℚ) :
    ∃ b, Val.gtQ v tol = some b := by
  cases v <;> simp [Val.gtQ] at *

/-- The match body of `npOf` over an abstract calculated cell (helper). -/
def npAux (tol : ℚ) (c p : Val) : Val :=
  match Val.gtQ (Val.absV (Val.subV c p)) tol with
  | none => Val.null
  | some true => c
  | some false => p

theorem npOf_eq_npAux (tol : ℚ) (a g p : Val) :
    npOf tol a g p = npAux tol (Val.mulV (Val.divV a g) (Val.fin 100)) p := rfl

theorem npAux_ne_null {tol : ℚ} {c p : Val} (hc : c ≠ .null) (hp : p ≠ .null) :
    npAux tol c p ≠ .null := by
  unfold npAux
  rcases gtQ_ne_none (absV_ne_null (subV_ne_null hc hp)) tol with ⟨b, hb⟩
  rw [hb]
  cases b
  · exact hp
  · exact hc

theorem npAux_self {tol : ℚ} (h0 : 0 ≤ tol) (c : Val) (hc : c ≠ .null) :
    npAux tol c c = c := by
  cases c with
  | null => exact absurd rfl hc
  | fin x =>
      unfold npAux
      simp only [Val.subV, Val.absV, Val.gtQ, sub_self, abs_zero]
      rw [decide_eq_false (not_lt.mpr h0)]
  | inf => rfl
  | ninf => rfl
  | nan => rfl

theorem npAux_stable {tol : ℚ} (h0 : 0 ≤ tol) {c p : Val}
    (hc : c ≠ .null) (hp : p ≠ .null) :
    npAux tol c (npAux tol c p) = npAux tol c p := by
  rcases gtQ_ne_none (absV_ne_null (subV_ne_null hc hp)) tol with ⟨b, hb⟩
  cases b with
  | false =>
      have hout : npAux tol c p = p := by
        unfold npAux
        rw [hb]
      rw [hout]
      exact hout
  | true =>
      have hout : npAux tol c p = c := by
        unfold npAux
        rw [hb]
      rw [hout]
      exact npAux_self h0 c hc

theorem npOf_stable (tol : ℚ) (h0 : 0 ≤ tol) {a g p : Val}
    (ha : a ≠ .null) (hg : g ≠ .null) (hp : p ≠ .null) :
    npOf tol a g (npOf tol a g p) = npOf tol a g p := by
  simp only [npOf_eq_npAux]
  exact npAux_stable h0 (mulV_ne_null (divV_ne_null ha hg) (by simp)) hp

theorem npOf_ne_null {tol : ℚ} {a g p : Val}
    (ha : a ≠ .null) (hg : g ≠ .null) (hp : p ≠ .null) :
    npOf tol a g p ≠ .null := by
  rw [npOf_eq_npAux]
  exact npAux_ne_null (mulV_ne_null (divV_ne_null ha hg) (by simp)) hp

theorem Extra_mem_all (e : Extra) : e ∈ Extra.all := by cases e <;> decide

theorem isNull_eq_true_iff (v : Val) : v.isNull = true ↔ v = .null := by
  cases v <;> simp [Val.isNull]

theorem nullFree_id {r : Row} (h : r.hasNull = false) : r.id.isSome = true := by
  rcases ho : r.id with _ | v
  · rw [Row.hasNull, ho] at h
    simp at h
  · rfl

theorem nullFree_dt {r : Row} (h : r.hasNull = false) : r.datetime.isSome = true := by
  rcases ho : r.datetime with _ | v
  · rw [Row.hasNull, ho] at h
    simp at h
  · rfl

theorem nullFree_gen {r : Row} (h : r.hasNull = false) : r.generation ≠ .null := by
  intro hg
  rw [Row.hasNull, hg] at h
  simp [Val.isNull] at h

theorem nullFree_abs {r : Row} (h : r.hasNull = false) (f : Fuel) : r.abs f ≠ .null := by
  intro hn
  rw [Row.hasNull] at h
  simp only [Bool.or_eq_false_iff, List.any_eq_false] at h
  exact h.1.2 f (Fuel_mem_all f) (by simp [hn, Val.isNull])

theorem nullFree_perc {r : Row} (h : r.hasNull = false) (f : Fuel) : r.perc f ≠ .null := by
  intro hn
  rw [Row.hasNull] at h
  simp only [Bool.or_eq_false_iff, List.any_eq_false] at h
  exact h.1.2 f (Fuel_mem_all f) (by simp [hn, Val.isNull])

theorem nullFree_extra {r : Row} (h : r.hasNull = false) (e : Extra) : r.extra e ≠ .null := by
  intro hn
  rw [Row.hasNull] at h
  simp only [Bool.or_eq_false_iff, List.any_eq_false] at h
  exact h.2 e (Extra_mem_all e) (by simp [hn, Val.isNull])

theorem hasNull_eq_false_of {r : Row} (h1 : r.id.isSome = true) (h2 : r.datetime.isSome = true)
    (h3 : r.generation ≠ .null) (h4 : ∀ f, r.abs f ≠ .null) (h5 : ∀ f, r.perc f ≠ .null)
    (h6 : ∀ e, r.extra e ≠ .null) : r.hasNull = false := by
  rw [Row.hasNull]
  simp only [Bool.or_eq_false_iff, List.any_eq_false]
  refine ⟨⟨⟨⟨?_, ?_⟩, ?_⟩, ?_⟩, ?_⟩
  · rcases ho : r.id with _ | v
    · rw [ho] at h1
      exact absurd h1 (by simp)
    · rfl
  · rcases ho : r.datetime with _ | v
    · rw [ho] at h2
      exact absurd h2 (by simp)
    · rfl
  · rcases hg : r.generation <;> simp [Val.isNull]
    exact h3 hg
  · intro f _ hcontra
    rcases Bool.or_eq_true_iff.mp hcontra with hc | hc
    · exact h4 f (isNull_eq_true_iff _ |>.mp hc)
    · exact h5 f (isNull_eq_true_iff _ |>.mp hc)
  · intro e _ hcontra
    exact h6 e (isNull_eq_true_iff _ |>.mp hcontra)

theorem Row.eq_of_fields {r₁ r₂ : Row} (h1 : r₁.id = r₂.id) (h2 : r₁.datetime = r₂.datetime)
    (h3 : r₁.abs = r₂.abs) (h4 : r₁.perc = r₂.perc) (h5 : r₁.generation = r₂.generation)
    (h6 : r₁.extra = r₂.extra) : r₁ = r₂ := by
  cases r₁
  cases r₂
  simp_all

/-- Reconciliation keeps a null-free row null-free. -/
theorem reconRow_hasNull (tol : ℚ) (r : Row) (h : r.hasNull = false) :
    (reconRow tol r).hasNull = false := by
  apply hasNull_eq_false_of
  · rw [reconRow_id]
    exact nullFree_id h
  · rw [reconRow_datetime]
    exact nullFree_dt h
  · rw [reconRow_generation]
    exact nullFree_gen h
  · intro f
    rw [reconRow_abs]
    exact nullFree_abs h f
  · intro f
    rw [reconRow_perc]
    exact npOf_ne_null (nullFree_abs h f) (nullFree_gen h) (nullFree_perc h f)
  · intro e
    rw [reconRow_extra]
    exact nullFree_extra h e

/-- Reconciliation is idempotent on null-free rows. -/
theorem reconRow_idem (tol : ℚ) (h0 : 0 ≤ tol) (r : Row) (h : r.hasNull = false) :
    reconRow tol (reconRow tol r) = reconRow tol r := by
  apply Row.eq_of_fields
  · rw [reconRow_id, reconRow_id]
  · rw [reconRow_datetime, reconRow_datetime]
  · rw [reconRow_abs, reconRow_abs]
  · funext f
    simp only [reconRow_perc, reconRow_abs, reconRow_generation]
    exact npOf_stable tol h0 (nullFree_abs h f) (nullFree_gen h) (nullFree_perc h f)
  · rw [reconRow_generation, reconRow_generation]
  · rw [reconRow_extra, reconRow_extra]

/-- `_validate_missing_values` is the identity on null-free frames. -/
theorem validate_missing_values_eq_self (l : List Row) (h : ∀ r ∈ l, r.hasNull = false) :
    (validate_missing_values l).1 = l := by
  unfold validate_missing_values
  have hfil : l.filter (fun r => r.hasNull) = [] :=
    List.filter_eq_nil_iff.mpr (fun r hr => by simp [h r hr])
  rw [hfil]
  simp

theorem keepLastBy_ne_nil {α κ : Type} [DecidableEq κ] (key : α → κ) :
    ∀ l : List α, l ≠ [] → keepLastBy key l ≠ []
  | [], h, _ => h rfl
  | x :: xs, _, hcontra => by
      rw [keepLastBy] at hcontra
      split at hcontra
      · rename_i hany
        rcases List.any_eq_true.mp hany with ⟨y, hy, _⟩
        exact keepLastBy_ne_nil key xs (List.ne_nil_of_mem hy) hcontra
      · exact List.cons_ne_nil _ _ hcontra

/-- The identifiers of the dedup output are duplicate-free. -/
theorem deduplicate_ids_nodup (l : List Row) :
    ((deduplicate l).1.map (fun r => r.id)).Nodup := by
  have hd1nodup : ((keepLastBy (fun r => r.id) (List.insertionSort dtLe l)).map
      (fun r => r.id)).Nodup := keepLastBy_keys_nodup _ _
  have hperm2 : (List.insertionSort idLe
      (keepLastBy (fun r => r.id) (List.insertionSort dtLe l))).Perm
        (keepLastBy (fun r => r.id) (List.insertionSort dtLe l)) :=
    List.perm_insertionSort _ _
  have hs2nodup := ((hperm2.map (fun r : Row => r.id)).symm).nodup hd1nodup
  exact List.Nodup.sublist ((keepLastBy_sublist _ _).map _) hs2nodup

/-- The timestamps of the dedup output are duplicate-free. -/
theorem deduplicate_dts_nodup (l : List Row) :
    ((deduplicate l).1.map (fun r => r.datetime)).Nodup :=
  keepLastBy_keys_nodup _ _

/-- The dedup output is in ascending-identifier order. -/
theorem deduplicate_sorted (l : List Row) : List.Sorted idLe (deduplicate l).1 :=
  List.Pairwise.sublist (keepLastBy_sublist _ _) (List.sorted_insertionSort idLe _)

/-- Every dedup-output row comes from the input. -/
theorem deduplicate_subset (l : List Row) : ∀ r ∈ (deduplicate l).1, r ∈ l := by
  intro r hr
  have hrd1 : r ∈ keepLastBy (fun r => r.id) (List.insertionSort dtLe l) :=
    (List.perm_insertionSort idLe _).subset ((keepLastBy_sublist _ _).subset hr)
  exact (List.perm_insertionSort dtLe l).subset ((keepLastBy_sublist _ _).subset hrd1)

theorem transform_records_eq (l : List Row) (hne : l ≠ []) :
    transform_records l
      = (deduplicate ((validate_missing_values
          ((validate_perc_consistency (parse_and_cast l) 1)).1).1)).1 := by
  cases l with
  | nil => exact absurd rfl hne
  | cons a as => rfl

theorem insertionSort_ne_nil {r : Row → Row → Prop} [DecidableRel r]
    {l : List Row} (h : l ≠ []) : List.insertionSort r l ≠ [] := by
  intro hc
  apply h
  have hlen := List.length_insertionSort r l
  rw [hc] at hlen
  exact List.eq_nil_of_length_eq_zero hlen.symm

theorem deduplicate_fst (l : List Row) :
    (deduplicate l).1
      = keepLastBy (fun r => r.datetime)
          (List.insertionSort idLe (keepLastBy (fun r => r.id)
            (List.insertionSort dtLe l))) := rfl

theorem deduplicate_ne_nil (l : List Row) (h : l ≠ []) : (deduplicate l).1 ≠ [] := by
  apply keepLastBy_ne_nil
  apply insertionSort_ne_nil
  apply keepLastBy_ne_nil
  exact insertionSort_ne_nil h

/-- **C5 (amended)** `transform` is idempotent on its own output for every
batch that contains no nulls (so the null-fill stage has nothing to do):
`transform_records (transform_records x) = transform_records x`.  (When the
first pass does null-fill a percentage or absolute cell, the second pass can
reconcile the filled zeros differently — see the counterexample.) -/
theorem C5_transform_idempotent (x : List Row) (hx : ∀ r ∈ x, r.hasNull = false) :
    transform_records (transform_records x) = transform_records x := by
  by_cases hne : x = []
  · rw [hne]
    rfl
  -- pass 1 normal form
  have hm_nullfree : ∀ r ∈ List.map (reconRow 1) (List.insertionSort dtLe x),
      r.hasNull = false := by
    intro r hr
    rcases List.mem_map.mp hr with ⟨r₀, hr₀, rfl⟩
    exact reconRow_hasNull 1 r₀ (hx r₀ ((List.perm_insertionSort dtLe x).subset hr₀))
  have h1 : transform_records x
      = (deduplicate (List.map (reconRow 1) (List.insertionSort dtLe x))).1 := by
    rw [transform_records_eq x hne]
    unfold parse_and_cast
    rw [validate_perc_consistency_fst,
      validate_missing_values_eq_self _ hm_nullfree]
  have hm_stable : ∀ r ∈ List.map (reconRow 1) (List.insertionSort dtLe x),
      reconRow 1 r = r := by
    intro r hr
    rcases List.mem_map.mp hr with ⟨r₀, hr₀, rfl⟩
    exact reconRow_idem 1 (by norm_num) r₀
      (hx r₀ ((List.perm_insertionSort dtLe x).subset hr₀))
  -- facts about y := transform_records x
  have hy_sub : ∀ r ∈ transform_records x,
      r ∈ List.map (reconRow 1) (List.insertionSort dtLe x) := by
    rw [h1]
    exact deduplicate_subset _
  have hy_nullfree : ∀ r ∈ transform_records x, r.hasNull = false :=
    fun r hr => hm_nullfree r (hy_sub r hr)
  have hy_stable : ∀ r ∈ transform_records x, reconRow 1 r = r :=
    fun r hr => hm_stable r (hy_sub r hr)
  have hy_idsnodup : ((transform_records x).map (fun r => r.id)).Nodup := by
    rw [h1]
    exact deduplicate_ids_nodup _
  have hy_dtsnodup : ((transform_records x).map (fun r => r.datetime)).Nodup := by
    rw [h1]
    exact deduplicate_dts_nodup _
  have hy_sorted : List.Sorted idLe (transform_records x) := by
    rw [h1]
    exact deduplicate_sorted _
  have hy_ne : transform_records x ≠ [] := by
    rw [h1]
    apply deduplicate_ne_nil
    intro hc
    apply hne
    have := congrArg List.length hc
    simp only [List.length_map, List.length_insertionSort, List.length_nil] at this
    exact List.eq_nil_of_length_eq_zero this
  -- pass 2
  have hz_perm : (List.insertionSort dtLe (transform_records x)).Perm (transform_records x) :=
    List.perm_insertionSort _ _
  have hz_sorted_dt : List.Sorted dtLe (List.insertionSort dtLe (transform_records x)) :=
    List.sorted_insertionSort dtLe _
  have hz_idsnodup : ((List.insertionSort dtLe (transform_records x)).map
      (fun r => r.id)).Nodup := ((hz_perm.map _).symm).nodup hy_idsnodup
  have hz_dtsnodup : ((List.insertionSort dtLe (transform_records x)).map
      (fun r => r.datetime)).Nodup := ((hz_perm.map _).symm).nodup hy_dtsnodup
  rw [transform_records_eq _ hy_ne]
  unfold parse_and_cast
  rw [validate_perc_consistency_fst]
  have hvpc : List.map (reconRow 1) (List.insertionSort dtLe (transform_records x))
      = List.insertionSort dtLe (transform_records x) :=
    (List.map_congr_left (fun r hr => hy_stable r (hz_perm.subset hr))).trans
      (List.map_id _)
  rw [hvpc]
  rw [validate_missing_values_eq_self _
    (fun r hr => hy_nullfree r (hz_perm.subset hr))]
  -- the dedup of the re-sorted output is the output itself
  rw [deduplicate_fst]
  rw [List.Sorted.insertionSort_eq hz_sorted_dt]
  rw [keepLastBy_eq_self _ _ hz_idsnodup]
  have hs2_perm : (List.insertionSort idLe (List.insertionSort dtLe
      (transform_records x))).Perm (List.insertionSort dtLe (transform_records x)) :=
    List.perm_insertionSort _ _
  have hs2_dtsnodup : ((List.insertionSort idLe (List.insertionSort dtLe
      (transform_records x))).map (fun r => r.datetime)).Nodup :=
    ((hs2_perm.map _).symm).nodup hz_dtsnodup
  rw [keepLastBy_eq_self _ _ hs2_dtsnodup]
  have hs2_idsnodup : ((List.insertionSort idLe (List.insertionSort dtLe
      (transform_records x))).map (fun r => r.id)).Nodup :=
    ((hs2_perm.map _).symm).nodup hz_idsnodup
  exact perm_sorted_id_nodup_eq
    (hs2_perm.trans hz_perm)
    (List.sorted_insertionSort idLe _)
    hy_sorted
    hs2_idsnodup

/-- **C5 witness** Idempotence at a concrete null-free batch (the spec's
reconciliation scenario row). -/
theorem C5_transform_idempotent_witness :
    transform_records (transform_records [rowW]) = transform_records [rowW] :=
  C5_transform_idempotent [rowW] (by with_unfolding_all decide)

/-- The row whose stored `WIND_perc` is null while `WIND = 50` and
`GENERATION = 200`: the first pass null-fills the percentage to `0.0`, the
second pass reconciles it to `25.0`. -/
def rowN : Row := sampleRow 1 0 (Val.fin 50) Val.null (Val.fin 200)

/-- **C5 counterexample** The claim as stated fails on a batch whose stored
percentage is null: the first transform outputs `WIND_perc = 0.0` (the
null-fill), and re-running transform on that output changes it to `25.0`,
so `transform (transform x) ≠ transform x` even though the second pass
performs no null-fill of its own. -/
theorem C5_transform_idempotent_counterexample :
    rowN.perc Fuel.WIND = Val.null
    ∧ (transform_records [rowN]).map (fun r => r.perc Fuel.WIND) = [Val.fin 0]
    ∧ (transform_records (transform_records [rowN])).map (fun r => r.perc Fuel.WIND)
        = [Val.fin 25]
    ∧ transform_records (transform_records [rowN]) ≠ transform_records [rowN] := by
  refine ⟨rfl, by with_unfolding_all decide, by with_unfolding_all decide, ?_⟩
  intro h
  have h25 : (transform_records (transform_records [rowN])).map
      (fun r => r.perc Fuel.WIND) = [Val.fin 25] := by with_unfolding_all decide
  rw [h] at h25
  have h0 : (transform_records [rowN]).map (fun r => r.perc Fuel.WIND) = [Val.fin 0] := by
    with_unfolding_all decide
  rw [h0] at h25
  exact absurd h25 (by with_unfolding_all decide)
